import Mathlib

/-!
Verification of the `threadpool` Go library (pbenner/threadpool).

This file gives a shallow embedding of the core of `src/threadpool.go`
(the revision defining `Nil`, `New`, `AddJob`, `AddRangeJob`, `Wait`,
`worker`, `setError`, `getError`, `clear`), and proves or refutes the
frozen claims about it.

Modelling conventions:
* Go `int` is modelled by `Int`.  Every division performed by the code
  (`(iTo-iFrom)/m` in `AddRangeJob`) has nonnegative operands on all
  reachable inputs, where Lean's `Int` division coincides with Go's
  truncating division.
* Go maps `map[int]*waitGroup` and `map[int]error` are modelled as
  association lists with Go map semantics (`mapLookup`, `mapInsert`,
  `mapErase`).
* Go `error` is an interface value; `nil` is modelled by `none`.
* The buffered channel is modelled as a FIFO list `queue` together with
  the capacity `bufsize`; a non-blocking send succeeds exactly when the
  buffer is not full.
* Execution is modelled sequentially: a user closure is a pure function
  of the `ThreadPool` handle it receives and of the value the error
  probe `erf` would return at invocation time.  Loops of the source are
  modelled by structurally recursive functions whose fuel is an exact
  bound on the number of iterations the Go loop performs.
-/

namespace Threadpool

/-- Go `error` values are opaque interface values (anything implementing
`Error()`); we model them as either a string message (as produced by
`fmt.Errorf`) or an arbitrary integer payload. -/
inductive Err where
  | msg : String → Err
  | val : Int → Err
deriving DecidableEq

/-- Lookup `m[k]` in a Go map `map[int]V`, modelled as an association list. -/
def mapLookup (k : Int) : List (Int × α) → Option α
  | [] => none
  | (k0, v) :: rest => if k0 = k then some v else mapLookup k rest

/-- Deletion `delete(m, k)` on a Go map. -/
def mapErase (k : Int) : List (Int × α) → List (Int × α)
  | [] => []
  | (k0, v) :: rest => if k0 = k then mapErase k rest else (k0, v) :: mapErase k rest

/-- Assignment `m[k] = v` on a Go map. -/
def mapInsert (k : Int) (v : α) (m : List (Int × α)) : List (Int × α) :=
  (k, v) :: mapErase k m

/-- The public handle `type ThreadPool struct { *threadPool; threadId int }`:
`pnil` records whether the embedded pointer is nil (as in the zero value
returned by `Nil()`), `threadId` is the `threadId` field. -/
structure ThreadPool where
  pnil : Bool
  threadId : Int
deriving DecidableEq

/-- A user closure `func(pool ThreadPool, erf func() error) error`: it
receives the handle and the value the error probe returns at invocation
time, and yields the returned error (or `none` for Go `nil`). -/
abbrev UserClosure := ThreadPool → Option Err → Option Err

/-- A queue record `type job struct { f ...; jobGroup int }`.  The stored
closure is the user closure; the latch decrement performed by the wrapper
`g` built in `AddJob` is applied by `runJob` when the record is executed. -/
structure Job where
  f : UserClosure
  jobGroup : Int

/-- State of the shared `type threadPool struct`: thread count, buffer
capacity, whether the channel is open, the channel contents (FIFO), the
group-id counter `cnt`, the wait-group map `wgm` (each `waitGroup` is
represented by its counter `cnt`), and the error map `err`. -/
structure threadPool where
  threads : Int
  bufsize : Int
  chOpen : Bool
  queue : List Job
  cnt : Int
  wgm : List (Int × Int)
  err : List (Int × Err)

/-- Method `NumberOfThreads`: 1 for a nil receiver, else the `threads` field. -/
def numberOfThreads (t : ThreadPool) (s : threadPool) : Int :=
  if t.pnil then 1 else s.threads

/-- Method `GetThreadId`: 0 if `NumberOfThreads() == 1`, else the handle's
`threadId` field. -/
def getThreadId (t : ThreadPool) (s : threadPool) : Int :=
  if numberOfThreads t s = 1 then 0 else t.threadId

/-- Search of `NewJobGroup`: starting at `i`, return the first id that has
no entry in `wgm`.  The fuel bounds the search; `wgm.length + 1` candidates
always suffice since the map has only `wgm.length` keys. -/
def freshId (wgm : List (Int × Int)) (i : Int) : Nat → Int
  | 0 => i
  | fuel+1 => if (mapLookup i wgm).isSome then freshId wgm (i+1) fuel else i

/-- Method `NewJobGroup`: 0 for a nil receiver; otherwise increment the
counter until an id with no wait group is found, returning that id (the
counter ends one past the returned id). -/
def newJobGroup (t : ThreadPool) (s : threadPool) : Int × threadPool :=
  if t.pnil then (0, s)
  else
    let i := freshId s.wgm s.cnt (s.wgm.length + 1)
    (i, { s with cnt := i + 1 })

/-- Method `setError`: `t.err[jobGroup] = err` (unconditional overwrite). -/
def setError (g : Int) (e : Err) (s : threadPool) : threadPool :=
  { s with err := mapInsert g e s.err }

/-- Method `getError`: the entry of the error map, `nil` when absent. -/
def getError (g : Int) (s : threadPool) : Option Err :=
  mapLookup g s.err

/-- Method `clear`: delete the group from the error map and from the
wait-group map. -/
def clear (g : Int) (s : threadPool) : threadPool :=
  { s with err := mapErase g s.err, wgm := mapErase g s.wgm }

/-- Method `getWaitGroup`: ensure the group has a wait-group entry,
creating a fresh one (counter 0) when absent. -/
def getWaitGroup (g : Int) (s : threadPool) : threadPool :=
  if (mapLookup g s.wgm).isSome then s
  else { s with wgm := mapInsert g 0 s.wgm }

/-- Method `waitGroup.Add` applied to group `g`: `cnt += i`. -/
def wgAdd (g : Int) (i : Int) (s : threadPool) : threadPool :=
  { s with wgm := mapInsert g ((mapLookup g s.wgm).getD 0 + i) s.wgm }

/-- Method `waitGroup.Done` applied to group `g`: `cnt -= 1`. -/
def wgDone (g : Int) (s : threadPool) : threadPool :=
  { s with wgm := mapInsert g ((mapLookup g s.wgm).getD 0 - 1) s.wgm }

/-- Method `waitGroup.Value` of group `g`. -/
def wgValue (g : Int) (s : threadPool) : Int :=
  (mapLookup g s.wgm).getD 0

/-- Execution of a dequeued job record, as performed by both `worker` and
the loop of `Wait`: invoke the stored closure with the executing handle
`t` and with the probe bound to the job's own group; the wrapper's
deferred `wg.Done()` fires when the closure returns; a non-nil result is
recorded with `setError` under the job's group. -/
def runJob (t : ThreadPool) (j : Job) (s : threadPool) : threadPool :=
  let e := j.f t (getError j.jobGroup s)
  let s1 := wgDone j.jobGroup s
  match e with
  | some e1 => setError j.jobGroup e1 s1
  | none => s1

/-- Method `AddJob`.  Degenerate pool (`NumberOfThreads() == 1`): run the
closure immediately with a probe that always returns `nil` and return its
error.  Otherwise: ensure the wait group exists, `wg.Add(1)`, then try a
non-blocking send; if the buffer is full, run the wrapped closure inline
on the submitting thread (its handle `t`), recording any error under the
submitted group; the return value is `nil`. -/
def addJob (t : ThreadPool) (g : Int) (f : UserClosure) (s : threadPool) :
    threadPool × Option Err :=
  if numberOfThreads t s = 1 then
    (s, f t none)
  else
    let s1 := getWaitGroup g s
    let s2 := wgAdd g 1 s1
    if (s2.queue.length : Int) < s2.bufsize then
      ({ s2 with queue := s2.queue ++ [⟨f, g⟩] }, none)
    else
      (runJob t ⟨f, g⟩ s2, none)

/-- Chunk body built by `AddRangeJob`: `for i := iFrom_; i < iTo_; i++`,
aborting on the first error of `f`.  The result also records the list of
indices at which `f` was invoked (the invocation trace).  The fuel is the
exact iteration count `(b - a).toNat` of the Go loop. -/
def chunkRunGo (f : Int → ThreadPool → Option Err → Option Err)
    (p : ThreadPool) (e : Option Err) (b : Int) :
    Nat → Int → List Int × Option Err
  | 0, _ => ([], none)
  | fuel+1, i =>
    if i < b then
      match f i p e with
      | some er => ([i], some er)
      | none =>
        let r := chunkRunGo f p e b fuel (i+1)
        (i :: r.1, r.2)
    else ([], none)

/-- Run of the chunk `[a, b)` built by `AddRangeJob`. -/
def chunkRun (f : Int → ThreadPool → Option Err → Option Err)
    (p : ThreadPool) (e : Option Err) (a b : Int) : List Int × Option Err :=
  chunkRunGo f p e b (b - a).toNat a

/-- The closure `AddRangeJob` submits for the chunk `[a, b)`. -/
def chunkClosure (f : Int → ThreadPool → Option Err → Option Err)
    (a b : Int) : UserClosure :=
  fun p e => (chunkRun f p e a b).2

/-- Chunk boundaries produced by the loop of `AddRangeJob`:
`for j := iFrom; j < iTo; j += n` with upper end `j+n` clamped to `iTo`.
The fuel `(hi - lo).toNat` is an upper bound on the iteration count
whenever `1 ≤ n` (the only reachable case, see `addRangeJob_fuel`). -/
def chunksGo (hi n : Int) : Nat → Int → List (Int × Int)
  | 0, _ => []
  | fuel+1, j =>
    if j < hi then
      (j, if j + n > hi then hi else j + n) :: chunksGo hi n fuel (j + n)
    else []

/-- Chunk boundaries of the loop of `AddRangeJob` starting at `lo`. -/
def chunks (lo hi n : Int) : List (Int × Int) :=
  chunksGo hi n (hi - lo).toNat lo

/-- Chunk count bound `m` of `AddRangeJob`: `m := t.NumberOfThreads()`
clamped to `iTo - iFrom`. -/
def rangeChunkNum (t : ThreadPool) (s : threadPool) (iFrom iTo : Int) : Int :=
  if numberOfThreads t s > iTo - iFrom then iTo - iFrom else numberOfThreads t s

/-- Stride `n := (iTo-iFrom)/m` of `AddRangeJob`. -/
def rangeStride (t : ThreadPool) (s : threadPool) (iFrom iTo : Int) : Int :=
  (iTo - iFrom) / rangeChunkNum t s iFrom iTo

/-- The list of chunks `AddRangeJob` submits (empty when `iFrom ≥ iTo`). -/
def rangeChunks (t : ThreadPool) (s : threadPool) (iFrom iTo : Int) :
    List (Int × Int) :=
  if iFrom ≥ iTo then [] else chunks iFrom iTo (rangeStride t s iFrom iTo)

/-- Submission loop of `AddRangeJob`: one `AddJob` per chunk, aborting if
`AddJob` returns an error. -/
def addRangeJobGo (t : ThreadPool) (g : Int)
    (f : Int → ThreadPool → Option Err → Option Err) :
    List (Int × Int) → threadPool → threadPool × Option Err
  | [], s => (s, none)
  | (a, b) :: rest, s =>
    match addJob t g (chunkClosure f a b) s with
    | (s1, none) => addRangeJobGo t g f rest s1
    | (s1, some e) => (s1, some e)

/-- Method `AddRangeJob`: no-op returning `nil` when `iFrom ≥ iTo`; else
split `[iFrom, iTo)` with stride `n = (iTo-iFrom)/min(N, iTo-iFrom)` and
submit one job per chunk. -/
def addRangeJob (t : ThreadPool) (iFrom iTo g : Int)
    (f : Int → ThreadPool → Option Err → Option Err) (s : threadPool) :
    threadPool × Option Err :=
  if iFrom ≥ iTo then (s, none)
  else addRangeJobGo t g f (chunks iFrom iTo (rangeStride t s iFrom iTo)) s

/-- Loop of `Wait`: while the wait-group counter is nonzero, take a job
from the channel and run it with the caller's handle `t`; when the channel
is empty, `wg.Wait()` blocks until the remaining jobs (held by other
workers) finish, then the loop exits — in the sequential model the state
is returned as is.  Since closures are pure, each iteration consumes one
queued job, so `s.queue.length` fuel is exact. -/
def waitLoopGo (t : ThreadPool) (g : Int) : Nat → threadPool → threadPool
  | 0, s => s
  | fuel+1, s =>
    if wgValue g s = 0 then s
    else
      match s.queue with
      | [] => s
      | j :: rest => waitLoopGo t g fuel (runJob t j { s with queue := rest })

/-- Drain phase of `Wait` on the current state. -/
def waitLoop (t : ThreadPool) (g : Int) (s : threadPool) : threadPool :=
  waitLoopGo t g s.queue.length s

/-- Method `Wait`: `nil` for a degenerate pool; `nil` when the group has
no wait-group entry; otherwise drain the queue as a worker, then read the
group's error, `clear` the group, and return the error. -/
def wait (t : ThreadPool) (g : Int) (s : threadPool) : threadPool × Option Err :=
  if numberOfThreads t s = 1 then (s, none)
  else if (mapLookup g s.wgm).isSome then
    let s1 := waitLoop t g s
    (clear g s1, getError g s1)
  else (s, none)

/-- Body of `worker(i)` over an explicit job list: run each job with the
handle `ThreadPool{t, i}`. -/
def workerJobs (i : Int) : List Job → threadPool → threadPool
  | [], s => s
  | j :: rest, s => workerJobs i rest (runJob ⟨false, i⟩ j s)

/-- Method `worker(i)`: `for job := range t.channel` — drain the channel,
running each job with the handle `ThreadPool{t, i}`. -/
def worker (i : Int) (s : threadPool) : threadPool :=
  workerJobs i s.queue { s with queue := [] }

/-- Method `channelOpen`: whether the channel exists and is not closed
(the receive-probe of the source is modelled by the `chOpen` flag). -/
def channelOpen (s : threadPool) : Bool :=
  s.chOpen

/-- Method `Start`: no-op on a nil receiver or when the channel is already
open; otherwise create the channel (empty buffer) and launch the workers. -/
def start (t : ThreadPool) (s : threadPool) : threadPool :=
  if t.pnil then s
  else if channelOpen s then s
  else { s with queue := [], chOpen := true }

/-- Method `Stop`: no-op on a nil receiver or when the channel is not
open; otherwise close the channel. -/
def stop (t : ThreadPool) (s : threadPool) : threadPool :=
  if t.pnil then s
  else if channelOpen s then { s with chOpen := false }
  else s

/-- Function `Nil()`: the zero-value handle (nil inner pointer, id 0). -/
def Nil : ThreadPool :=
  ⟨true, 0⟩

/-- Initial field assignments of `New` before `t.Start()`. -/
def initState (threads bufsize : Int) : threadPool :=
  { threads := threads, bufsize := bufsize, chOpen := false, queue := [],
    cnt := 0, wgm := [], err := [] }

/-- Function `New(threads, bufsize)`: fails fast (modelled by `none`) on
`threads < 1` or `bufsize < 1`; returns the zero-value handle when
`threads == 1`; otherwise builds the shared state and starts the pool.
The second component is the shared state pointed to by the handle
(`none` for the degenerate handle, whose pointer is nil). -/
def New (threads bufsize : Int) : Option (ThreadPool × Option threadPool) :=
  if threads < 1 then none
  else if bufsize < 1 then none
  else if threads = 1 then some (Nil, none)
  else some (⟨false, 0⟩, some (start ⟨false, 0⟩ (initState threads bufsize)))

/-! ## Basic lemmas about the Go map model -/

theorem mapLookup_mapErase_self (k : Int) (m : List (Int × α)) :
    mapLookup k (mapErase k m) = none := by
  induction m with
  | nil => rfl
  | cons kv rest ih =>
    obtain ⟨k0, v⟩ := kv
    by_cases h : k0 = k
    · simp [mapErase, h, ih]
    · simp [mapErase, mapLookup, h, ih]

theorem mapLookup_mapErase_ne (k q : Int) (h : q ≠ k) (m : List (Int × α)) :
    mapLookup q (mapErase k m) = mapLookup q m := by
  induction m with
  | nil => rfl
  | cons kv rest ih =>
    obtain ⟨k0, v⟩ := kv
    by_cases h0 : k0 = k
    · have hkq : k0 ≠ q := by rw [h0]; exact Ne.symm h
      simp [mapErase, h0, mapLookup, hkq, Ne.symm h, ih]
    · by_cases hq : k0 = q
      · simp [mapErase, h0, mapLookup, hq, h]
      · simp [mapErase, h0, mapLookup, hq, ih]

theorem mapLookup_mapInsert_self (k : Int) (v : α) (m : List (Int × α)) :
    mapLookup k (mapInsert k v m) = some v := by
  simp [mapInsert, mapLookup]

theorem mapLookup_mapInsert_ne (k q : Int) (h : q ≠ k) (v : α) (m : List (Int × α)) :
    mapLookup q (mapInsert k v m) = mapLookup q m := by
  simp [mapInsert, mapLookup, Ne.symm h, mapLookup_mapErase_ne k q h m]

/-! ## Frame lemmas: which state fields each operation leaves unchanged -/

@[simp] theorem setError_queue (g : Int) (e : Err) (s : threadPool) :
    (setError g e s).queue = s.queue := rfl

@[simp] theorem setError_wgm (g : Int) (e : Err) (s : threadPool) :
    (setError g e s).wgm = s.wgm := rfl

@[simp] theorem setError_bufsize (g : Int) (e : Err) (s : threadPool) :
    (setError g e s).bufsize = s.bufsize := rfl

@[simp] theorem setError_threads (g : Int) (e : Err) (s : threadPool) :
    (setError g e s).threads = s.threads := rfl

@[simp] theorem wgAdd_err (g i : Int) (s : threadPool) :
    (wgAdd g i s).err = s.err := rfl

@[simp] theorem wgAdd_queue (g i : Int) (s : threadPool) :
    (wgAdd g i s).queue = s.queue := rfl

@[simp] theorem wgAdd_bufsize (g i : Int) (s : threadPool) :
    (wgAdd g i s).bufsize = s.bufsize := rfl

@[simp] theorem wgAdd_threads (g i : Int) (s : threadPool) :
    (wgAdd g i s).threads = s.threads := rfl

@[simp] theorem wgDone_err (g : Int) (s : threadPool) :
    (wgDone g s).err = s.err := rfl

@[simp] theorem wgDone_queue (g : Int) (s : threadPool) :
    (wgDone g s).queue = s.queue := rfl

@[simp] theorem wgDone_threads (g : Int) (s : threadPool) :
    (wgDone g s).threads = s.threads := rfl

@[simp] theorem getWaitGroup_err (g : Int) (s : threadPool) :
    (getWaitGroup g s).err = s.err := by
  unfold getWaitGroup; split <;> rfl

@[simp] theorem getWaitGroup_queue (g : Int) (s : threadPool) :
    (getWaitGroup g s).queue = s.queue := by
  unfold getWaitGroup; split <;> rfl

@[simp] theorem getWaitGroup_bufsize (g : Int) (s : threadPool) :
    (getWaitGroup g s).bufsize = s.bufsize := by
  unfold getWaitGroup; split <;> rfl

@[simp] theorem getWaitGroup_threads (g : Int) (s : threadPool) :
    (getWaitGroup g s).threads = s.threads := by
  unfold getWaitGroup; split <;> rfl

@[simp] theorem runJob_queue (t : ThreadPool) (j : Job) (s : threadPool) :
    (runJob t j s).queue = s.queue := by
  unfold runJob
  cases j.f t (getError j.jobGroup s) <;> rfl

@[simp] theorem runJob_threads (t : ThreadPool) (j : Job) (s : threadPool) :
    (runJob t j s).threads = s.threads := by
  unfold runJob
  cases j.f t (getError j.jobGroup s) <;> rfl

/-! ## Claim C1: error recording -/

/-- C1 (amended): `setError` assigns unconditionally, so recording a
further error for a group replaces the stored error — the last recorded
error wins, while the entries of every other group are unchanged. -/
theorem setError_last_wins (g q : Int) (e : Err) (s : threadPool) :
    getError g (setError g e s) = some e ∧
    (q ≠ g → getError q (setError g e s) = getError q s) := by
  constructor
  · simp [getError, setError, mapLookup_mapInsert_self]
  · intro h
    simp [getError, setError, mapLookup_mapInsert_ne g q h]

/-- C1 witness: instantiating `setError_last_wins` on a state whose group 4
already stores an error. -/
theorem setError_last_wins_witness :
    getError 4 (setError 4 (Err.msg "b")
      ⟨2, 1, true, [], 0, [], [(4, Err.msg "a")]⟩) = some (Err.msg "b") ∧
    ((3 : Int) ≠ 4 → getError 3 (setError 4 (Err.msg "b")
      ⟨2, 1, true, [], 0, [], [(4, Err.msg "a")]⟩) =
      getError 3 ⟨2, 1, true, [], 0, [], [(4, Err.msg "a")]⟩) :=
  setError_last_wins 4 3 (Err.msg "b") ⟨2, 1, true, [], 0, [], [(4, Err.msg "a")]⟩

/-- C1 counterexample: group 4 already stores the error `"first"`;
recording `"second"` for the same group changes the stored error to
`"second"`, so the first recorded error is not kept. -/
theorem setError_overwrites_cex :
    getError 4 (setError 4 (Err.msg "second")
      ⟨2, 1, true, [], 0, [], [(4, Err.msg "first")]⟩) = some (Err.msg "second")
    ∧ Err.msg "second" ≠ Err.msg "first" := by
  exact ⟨rfl, by decide⟩

/-! ## Claim C6: degenerate AddJob -/

/-- C6: on a degenerate pool (`NumberOfThreads() == 1`), `AddJob` runs the
closure immediately on the caller with an error probe that always returns
nil, returns exactly the closure's error (state unchanged), and the
closure's handle observes thread id 0. -/
theorem addJob_degenerate (t : ThreadPool) (g : Int) (f : UserClosure)
    (s : threadPool) (h1 : numberOfThreads t s = 1) :
    addJob t g f s = (s, f t none) ∧ getThreadId t s = 0 := by
  constructor
  · simp [addJob, h1]
  · simp [getThreadId, h1]

/-- C6 witness: instantiating `addJob_degenerate` on the nil pool with a
closure that fails. -/
theorem addJob_degenerate_witness :
    numberOfThreads Nil (initState 1 1) = 1 ∧
    (addJob Nil 0 (fun _ _ => some (Err.msg "boom")) (initState 1 1) =
      (initState 1 1, (fun (_ : ThreadPool) (_ : Option Err) => some (Err.msg "boom")) Nil none) ∧
    getThreadId Nil (initState 1 1) = 0) :=
  ⟨rfl, addJob_degenerate Nil 0 (fun _ _ => some (Err.msg "boom")) (initState 1 1) rfl⟩

/-! ## Claim C7: trivial cases of Wait -/

/-- C7: `Wait` returns nil with the state unchanged (no job is run) when
the pool is degenerate or when the group has no wait-group entry. -/
theorem wait_trivial (t : ThreadPool) (g : Int) (s : threadPool)
    (h : numberOfThreads t s = 1 ∨ mapLookup g s.wgm = none) :
    wait t g s = (s, none) := by
  rcases h with h | h
  · simp [wait, h]
  · by_cases h1 : numberOfThreads t s = 1
    · simp [wait, h1]
    · simp [wait, h1, h]

/-- C7 witness: instantiating `wait_trivial` on a 3-thread pool state whose
registry has no entry for group 0. -/
theorem wait_trivial_witness :
    (numberOfThreads ⟨false, 0⟩ (initState 3 1) = 1 ∨
      mapLookup 0 (initState 3 1).wgm = none) ∧
    wait ⟨false, 0⟩ 0 (initState 3 1) = (initState 3 1, none) :=
  ⟨Or.inr rfl, wait_trivial ⟨false, 0⟩ 0 (initState 3 1) (Or.inr rfl)⟩

/-! ## Claim C5: AddJob on a non-degenerate pool -/

theorem getWaitGroup_lookup (g : Int) (s : threadPool) :
    (mapLookup g (getWaitGroup g s).wgm).getD 0 = (mapLookup g s.wgm).getD 0 := by
  unfold getWaitGroup
  by_cases h : (mapLookup g s.wgm).isSome
  · simp [h]
  · have hn : mapLookup g s.wgm = none := Option.not_isSome_iff_eq_none.mp h
    simp [h, hn, mapLookup_mapInsert_self]

/-- C5: on a non-degenerate pool, `AddJob` returns nil and never blocks:
it increments the group's latch and attempts a non-blocking enqueue; when
the buffer has room the wrapped closure is appended to the queue and no
error map entry changes; when the buffer is full the closure runs inline
with the submitting handle `t` and its error (if any) is recorded under
the submitted group instead of being returned. -/
theorem addJob_nonblocking (t : ThreadPool) (g : Int) (f : UserClosure)
    (s : threadPool) (hN : ¬ numberOfThreads t s = 1) :
    (addJob t g f s).2 = none ∧
    ((s.queue.length : Int) < s.bufsize →
      (addJob t g f s).1.queue = s.queue ++ [⟨f, g⟩] ∧
      mapLookup g (addJob t g f s).1.wgm =
        some ((mapLookup g s.wgm).getD 0 + 1) ∧
      (addJob t g f s).1.err = s.err) ∧
    (¬ (s.queue.length : Int) < s.bufsize →
      (addJob t g f s).1.queue = s.queue ∧
      (∀ e, f t (getError g s) = some e →
        getError g (addJob t g f s).1 = some e) ∧
      (f t (getError g s) = none → (addJob t g f s).1.err = s.err)) := by
  have hkey : addJob t g f s =
      (if ((wgAdd g 1 (getWaitGroup g s)).queue.length : Int) <
          (wgAdd g 1 (getWaitGroup g s)).bufsize then
        ({ wgAdd g 1 (getWaitGroup g s) with
            queue := (wgAdd g 1 (getWaitGroup g s)).queue ++ [⟨f, g⟩] }, none)
      else
        (runJob t ⟨f, g⟩ (wgAdd g 1 (getWaitGroup g s)), none)) := by
    simp [addJob, hN]
  have hqueue : (wgAdd g 1 (getWaitGroup g s)).queue = s.queue := by simp
  have hbuf : (wgAdd g 1 (getWaitGroup g s)).bufsize = s.bufsize := by simp
  have herr : (wgAdd g 1 (getWaitGroup g s)).err = s.err := by simp
  by_cases hfull : (s.queue.length : Int) < s.bufsize
  · rw [hkey, if_pos (by rw [hqueue, hbuf]; exact hfull)]
    refine ⟨rfl, fun _ => ⟨by simp, ?_, herr⟩, fun hc => absurd hfull hc⟩
    simp only [wgAdd, mapLookup_mapInsert_self, getWaitGroup_lookup]
  · rw [hkey, if_neg (by rw [hqueue, hbuf]; exact hfull)]
    refine ⟨rfl, fun hc => absurd hc hfull, fun _ => ⟨by simp, ?_, ?_⟩⟩
    · intro e he
      have hprobe : getError g (wgAdd g 1 (getWaitGroup g s)) = getError g s := by
        simp [getError, herr]
      simp only [runJob, hprobe]
      rw [he]
      simp [getError, setError, mapLookup_mapInsert_self]
    · intro he
      have hprobe : getError g (wgAdd g 1 (getWaitGroup g s)) = getError g s := by
        simp [getError, herr]
      simp only [runJob, hprobe]
      rw [he]
      simp [herr]

/-- C5 witness: instantiating `addJob_nonblocking` on a 2-thread pool with
an empty queue of capacity 1. -/
theorem addJob_nonblocking_witness :
    ¬ numberOfThreads ⟨false, 0⟩ (initState 2 1) = 1 ∧
    (addJob ⟨false, 0⟩ 0 (fun _ _ => none) (initState 2 1)).2 = none :=
  ⟨by decide,
    (addJob_nonblocking ⟨false, 0⟩ 0 (fun _ _ => none) (initState 2 1)
      (by decide)).1⟩

/-! ## Claim C8: Wait returns the group's error and clears exactly it -/

/-- C8: on a non-degenerate pool whose registry has an entry for `g`,
`Wait` returns the error recorded for `g` in the state reached after its
drain loop (nil if none), and the final `clear` removes exactly group
`g`'s entries from the error map and the wait-group map, leaving the
entries of every other group as the drain loop left them. -/
theorem wait_clear_spec (t : ThreadPool) (g : Int) (s : threadPool)
    (hN : ¬ numberOfThreads t s = 1) (hg : (mapLookup g s.wgm).isSome) :
    (wait t g s).2 = getError g (waitLoop t g s) ∧
    getError g (wait t g s).1 = none ∧
    mapLookup g (wait t g s).1.wgm = none ∧
    ∀ q, q ≠ g →
      getError q (wait t g s).1 = getError q (waitLoop t g s) ∧
      mapLookup q (wait t g s).1.wgm = mapLookup q (waitLoop t g s).wgm := by
  have hw : wait t g s = (clear g (waitLoop t g s), getError g (waitLoop t g s)) := by
    simp [wait, hN, hg]
  rw [hw]
  refine ⟨rfl, ?_, ?_, ?_⟩
  · simp [getError, clear, mapLookup_mapErase_self]
  · simp [clear, mapLookup_mapErase_self]
  · intro q hq
    exact ⟨by simp [getError, clear, mapLookup_mapErase_ne g q hq],
      by simp [clear, mapLookup_mapErase_ne g q hq]⟩

/-- C8 witness: instantiating `wait_clear_spec` on a 3-thread pool whose
group 5 is registered with counter 0 and a recorded error. -/
theorem wait_clear_spec_witness :
    (¬ numberOfThreads ⟨false, 0⟩
        ⟨3, 10, true, [], 0, [(5, 0)], [(5, Err.msg "e")]⟩ = 1 ∧
      (mapLookup 5 (⟨3, 10, true, [], 0, [(5, 0)],
        [(5, Err.msg "e")]⟩ : threadPool).wgm).isSome) ∧
    (wait ⟨false, 0⟩ 5 ⟨3, 10, true, [], 0, [(5, 0)], [(5, Err.msg "e")]⟩).2 =
      getError 5 (waitLoop ⟨false, 0⟩ 5
        ⟨3, 10, true, [], 0, [(5, 0)], [(5, Err.msg "e")]⟩) :=
  ⟨⟨by decide, by decide⟩,
    (wait_clear_spec ⟨false, 0⟩ 5 ⟨3, 10, true, [], 0, [(5, 0)], [(5, Err.msg "e")]⟩
      (by decide) (by decide)).1⟩

/-! ## Claim C9: the zero-value pool -/

/-- C9: every public operation on the zero-value `ThreadPool` (nil inner
pointer, as returned by `Nil()` and by `New(1, b)` for `b ≥ 1`) is total
and behaves as the degenerate pool: `NumberOfThreads` is 1, `GetThreadId`
is 0, `NewJobGroup` is 0, `Wait` returns nil, `Start` and `Stop` are
no-ops, and `AddJob` runs the closure synchronously. -/
theorem nil_pool_ops (s : threadPool) (g b : Int) (f : UserClosure) :
    numberOfThreads Nil s = 1 ∧
    getThreadId Nil s = 0 ∧
    newJobGroup Nil s = (0, s) ∧
    wait Nil g s = (s, none) ∧
    start Nil s = s ∧
    stop Nil s = s ∧
    addJob Nil g f s = (s, f Nil none) ∧
    (1 ≤ b → New 1 b = some (Nil, none)) := by
  refine ⟨rfl, rfl, rfl, rfl, rfl, rfl, rfl, ?_⟩
  intro hb
  have h1 : ¬ ((1 : Int) < 1) := by omega
  have h2 : ¬ (b < 1) := by omega
  simp [New, h1, h2]

/-- C9 witness: instantiating `nil_pool_ops` at `b = 7` and discharging
the `1 ≤ b` hypothesis of the `New` conjunct. -/
theorem nil_pool_ops_witness :
    (1 : Int) ≤ 7 ∧ New 1 7 = some (Nil, none) :=
  ⟨by decide, (nil_pool_ops (initState 1 1) 0 7 (fun _ _ => none)).2.2.2.2.2.2.2 (by decide)⟩

/-! ## Claim C3: which thread id dequeued jobs observe -/

/-- Closure that reports the `threadId` field of the handle it receives,
as a Go closure would observe via `pool.GetThreadId()` on a
non-degenerate pool. -/
def tidReporter : UserClosure :=
  fun p _ => some (Err.val p.threadId)

/-- C3 (amended): the `Wait` loop passes its own receiver handle `t` to
each dequeued closure, so the closure observes the *caller's* thread id
(0 exactly when `Wait` is invoked on the main handle), while `worker i`
runs each closure with the handle `ThreadPool{t, i}` carrying its own
fixed id `i`. -/
theorem wait_runs_with_caller_id (t : ThreadPool) (g g2 : Int) (s : threadPool)
    (hq : s.queue = [⟨tidReporter, g2⟩])
    (hv : ¬ wgValue g s = 0)
    (hN : ¬ numberOfThreads t s = 1)
    (hg : (mapLookup g s.wgm).isSome)
    (hne : g2 ≠ g) :
    getError g2 (wait t g s).1 = some (Err.val t.threadId) ∧
    ∀ (i : Int) (s2 : threadPool), s2.queue = [⟨tidReporter, g2⟩] →
      getError g2 (worker i s2) = some (Err.val i) := by
  constructor
  · have hw : wait t g s = (clear g (waitLoop t g s), getError g (waitLoop t g s)) := by
      simp [wait, hN, hg]
    have hlen : s.queue.length = 1 := by rw [hq]; rfl
    have hloop : waitLoop t g s =
        runJob t ⟨tidReporter, g2⟩ { s with queue := [] } := by
      unfold waitLoop
      rw [hlen]
      simp only [waitLoopGo]
      rw [if_neg hv, hq]
    rw [hw, hloop]
    simp only [runJob, tidReporter]
    simp [getError, clear, setError,
      mapLookup_mapErase_ne g g2 hne, mapLookup_mapInsert_self]
  · intro i s2 hq2
    have hworker : worker i s2 =
        runJob ⟨false, i⟩ ⟨tidReporter, g2⟩ { s2 with queue := [] } := by
      unfold worker
      rw [hq2]
      simp only [workerJobs]
    rw [hworker]
    simp only [runJob, tidReporter]
    simp [getError, setError, mapLookup_mapInsert_self]

/-- C3 witness: instantiating `wait_runs_with_caller_id` on a concrete
3-thread state with one queued job. -/
theorem wait_runs_with_caller_id_witness :
    getError 7 (wait ⟨false, 2⟩ 5
      ⟨3, 10, true, [⟨tidReporter, 7⟩], 0, [(5, 1), (7, 1)], []⟩).1 =
      some (Err.val (⟨false, 2⟩ : ThreadPool).threadId) :=
  (wait_runs_with_caller_id ⟨false, 2⟩ 5 7
    ⟨3, 10, true, [⟨tidReporter, 7⟩], 0, [(5, 1), (7, 1)], []⟩
    rfl (by decide) (by decide) (by decide) (by decide)).1

/-- C3 counterexample: a `Wait` executed through a handle whose thread id
is 2 (for example a nested `Wait` inside a job running on worker 2) runs
the dequeued closure with thread id 2, not 0, refuting the claim that the
closure observes thread id 0 regardless of which thread executes `Wait`. -/
theorem wait_thread_id_cex :
    getError 7 (wait ⟨false, 2⟩ 5
      ⟨3, 10, true, [⟨tidReporter, 7⟩], 0, [(5, 1), (7, 1)], []⟩).1 =
      some (Err.val 2) ∧
    Err.val 2 ≠ Err.val 0 ∧
    getThreadId ⟨false, 2⟩
      ⟨3, 10, true, [⟨tidReporter, 7⟩], 0, [(5, 1), (7, 1)], []⟩ = 2 := by
  exact ⟨rfl, by decide, rfl⟩

/-! ## Range chunking: lemmas about the loop of AddRangeJob -/

/-- The list of integers in `[a, b)`, in increasing order. -/
def intRange (a b : Int) : List Int :=
  (List.range (b - a).toNat).map (fun (k : Nat) => a + (k : Int))

theorem intRange_eq_nil (a b : Int) (h : b ≤ a) : intRange a b = [] := by
  unfold intRange
  have h0 : (b - a).toNat = 0 := by omega
  rw [h0]
  rfl

theorem intRange_append (a c b : Int) (h1 : a ≤ c) (h2 : c ≤ b) :
    intRange a c ++ intRange c b = intRange a b := by
  unfold intRange
  have hsplit : (b - a).toNat = (c - a).toNat + (b - c).toNat := by omega
  rw [hsplit, List.range_add, List.map_append, List.map_map]
  congr 1
  refine List.map_congr_left (fun x _ => ?_)
  simp only [Function.comp_apply, Nat.cast_add]
  omega

theorem intRange_singleton (a : Int) : intRange a (a + 1) = [a] := by
  unfold intRange
  have h1 : (a + 1 - a).toNat = 1 := by omega
  rw [h1]
  simp [List.range_succ]

theorem intRange_cons (a b : Int) (h : a < b) :
    intRange a b = a :: intRange (a + 1) b := by
  rw [← intRange_append a (a + 1) b (by omega) (by omega), intRange_singleton]
  rfl

theorem chunksGo_cover (hi n : Int) (hn : 1 ≤ n) :
    ∀ (fuel : Nat) (lo : Int), (hi - lo).toNat ≤ fuel →
    (chunksGo hi n fuel lo).flatMap (fun p => intRange p.1 p.2) = intRange lo hi := by
  intro fuel
  induction fuel with
  | zero =>
    intro lo hf
    rw [intRange_eq_nil lo hi (by omega)]
    rfl
  | succ fuel ih =>
    intro lo hf
    by_cases h : lo < hi
    · have hrest : (hi - (lo + n)).toNat ≤ fuel := by omega
      simp only [chunksGo, if_pos h, List.flatMap_cons]
      rw [ih (lo + n) hrest]
      show intRange lo (if lo + n > hi then hi else lo + n) ++ intRange (lo + n) hi
        = intRange lo hi
      by_cases he : lo + n > hi
      · rw [if_pos he, intRange_eq_nil (lo + n) hi (by omega)]
        simp
      · rw [if_neg he]
        exact intRange_append lo (lo + n) hi (by omega) (by omega)
    · simp only [chunksGo, if_neg h]
      rw [intRange_eq_nil lo hi (by omega)]
      rfl

theorem chunksGo_sizes (hi n : Int) (hn : 1 ≤ n) :
    ∀ (fuel : Nat) (lo : Int) (p : Int × Int), p ∈ chunksGo hi n fuel lo →
    0 < p.2 - p.1 ∧ p.2 - p.1 ≤ n ∧ (p.2 - p.1 = n ∨ p.2 = hi) := by
  intro fuel
  induction fuel with
  | zero =>
    intro lo p hp
    simp [chunksGo] at hp
  | succ fuel ih =>
    intro lo p hp
    by_cases h : lo < hi
    · simp only [chunksGo, if_pos h, List.mem_cons] at hp
      rcases hp with hp | hp
      · subst hp
        by_cases he : lo + n > hi
        · simp only [if_pos he]
          exact ⟨by omega, by omega, Or.inr trivial⟩
        · simp only [if_neg he]
          show 0 < lo + n - lo ∧ lo + n - lo ≤ n ∧ (lo + n - lo = n ∨ lo + n = hi)
          omega
      · exact ih (lo + n) p hp
    · simp [chunksGo, if_neg h] at hp

theorem chunksGo_length (hi n : Int) (hn : 1 ≤ n) :
    ∀ (fuel : Nat) (lo : Int), (hi - lo).toNat ≤ fuel →
    (chunksGo hi n fuel lo).length = ((hi - lo + n - 1) / n).toNat := by
  have hsmall : ∀ lo : Int, hi ≤ lo → ((hi - lo + n - 1) / n).toNat = 0 := by
    intro lo hle
    have hlt : (hi - lo + n - 1) / n < 1 := by
      rw [Int.ediv_lt_iff_lt_mul (by omega)]
      omega
    omega
  intro fuel
  induction fuel with
  | zero =>
    intro lo hf
    rw [hsmall lo (by omega)]
    rfl
  | succ fuel ih =>
    intro lo hf
    by_cases h : lo < hi
    · have hrest : (hi - (lo + n)).toNat ≤ fuel := by omega
      simp only [chunksGo, if_pos h, List.length_cons]
      rw [ih (lo + n) hrest]
      have hstep : (hi - (lo + n) + n - 1) / n = (hi - lo + n - 1) / n + (-1) := by
        have := Int.add_mul_ediv_right (hi - lo + n - 1) (-1) (show n ≠ 0 by omega)
        rw [← this]
        ring_nf
      have hge : 1 ≤ (hi - lo + n - 1) / n := by
        rw [Int.le_ediv_iff_mul_le (by omega)]
        omega
      rw [hstep]
      omega
    · simp only [chunksGo, if_neg h, List.length_nil]
      rw [hsmall lo (by omega)]

theorem chunksGo_length_le (hi n : Int) :
    ∀ (fuel : Nat) (lo : Int), (chunksGo hi n fuel lo).length ≤ fuel := by
  intro fuel
  induction fuel with
  | zero =>
    intro lo
    simp [chunksGo]
  | succ fuel ih =>
    intro lo
    by_cases h : lo < hi
    · simp only [chunksGo, if_pos h, List.length_cons]
      exact Nat.succ_le_succ (ih (lo + n))
    · simp [chunksGo, if_neg h]

theorem rangeChunkNum_bounds (t : ThreadPool) (s : threadPool) (lo hi : Int)
    (hlt : lo < hi) (hN : 1 ≤ numberOfThreads t s) :
    1 ≤ rangeChunkNum t s lo hi ∧ rangeChunkNum t s lo hi ≤ hi - lo := by
  unfold rangeChunkNum
  split <;> omega

theorem rangeStride_pos (t : ThreadPool) (s : threadPool) (lo hi : Int)
    (hlt : lo < hi) (hN : 1 ≤ numberOfThreads t s) :
    1 ≤ rangeStride t s lo hi := by
  obtain ⟨h1, h2⟩ := rangeChunkNum_bounds t s lo hi hlt hN
  unfold rangeStride
  rw [Int.le_ediv_iff_mul_le (by omega)]
  omega

theorem rangeChunks_eq (t : ThreadPool) (s : threadPool) (lo hi : Int)
    (hlt : lo < hi) :
    rangeChunks t s lo hi = chunks lo hi (rangeStride t s lo hi) := by
  unfold rangeChunks
  rw [if_neg (by omega)]

theorem chunkRunGo_trace (f : Int → ThreadPool → Option Err → Option Err)
    (p : ThreadPool) (e : Option Err) (b : Int)
    (hf : ∀ i q e2, f i q e2 = none) :
    ∀ (fuel : Nat) (a : Int), (b - a).toNat ≤ fuel →
    (chunkRunGo f p e b fuel a).1 = intRange a b := by
  intro fuel
  induction fuel with
  | zero =>
    intro a hfu
    rw [intRange_eq_nil a b (by omega)]
    rfl
  | succ fuel ih =>
    intro a hfu
    by_cases h : a < b
    · simp only [chunkRunGo, if_pos h, hf a p e]
      rw [ih (a + 1) (by omega)]
      exact (intRange_cons a b h).symm
    · simp only [chunkRunGo, if_neg h]
      rw [intRange_eq_nil a b (by omega)]

/-! ## Claim C2: chunk shape of AddRangeJob -/

/-- C2 (amended): for `lo < hi`, `AddRangeJob` uses the stride
`n = (hi-lo)/m` with `m = min(N, hi-lo)` and produces
`⌈(hi-lo)/n⌉` contiguous chunks; every chunk has size exactly `n` except
possibly the chunk ending at `hi` (the final one), whose size is between
1 and `n`.  The chunk count equals `m` only when `n` divides `hi - lo`;
otherwise it exceeds `m` and can exceed `N` (see the counterexample). -/
theorem addRangeJob_chunking (t : ThreadPool) (s : threadPool) (lo hi : Int)
    (hlt : lo < hi) (hN : 1 ≤ numberOfThreads t s) :
    1 ≤ rangeStride t s lo hi ∧
    (rangeChunks t s lo hi).length =
      ((hi - lo + rangeStride t s lo hi - 1) / rangeStride t s lo hi).toNat ∧
    ∀ p ∈ rangeChunks t s lo hi,
      0 < p.2 - p.1 ∧ p.2 - p.1 ≤ rangeStride t s lo hi ∧
      (p.2 - p.1 = rangeStride t s lo hi ∨ p.2 = hi) := by
  have hn := rangeStride_pos t s lo hi hlt hN
  refine ⟨hn, ?_, ?_⟩
  · rw [rangeChunks_eq t s lo hi hlt]
    exact chunksGo_length hi (rangeStride t s lo hi) hn (hi - lo).toNat lo (le_refl _)
  · rw [rangeChunks_eq t s lo hi hlt]
    exact fun p hp =>
      chunksGo_sizes hi (rangeStride t s lo hi) hn (hi - lo).toNat lo p hp

/-- C2 witness: instantiating `addRangeJob_chunking` with 3 threads on
the range `[0, 5)`. -/
theorem addRangeJob_chunking_witness :
    ((0 : Int) < 5 ∧ 1 ≤ numberOfThreads ⟨false, 0⟩ (initState 3 100)) ∧
    (rangeChunks ⟨false, 0⟩ (initState 3 100) 0 5).length =
      ((5 - 0 + rangeStride ⟨false, 0⟩ (initState 3 100) 0 5 - 1) /
        rangeStride ⟨false, 0⟩ (initState 3 100) 0 5).toNat :=
  ⟨⟨by decide, by decide⟩,
    (addRangeJob_chunking ⟨false, 0⟩ (initState 3 100) 0 5
      (by decide) (by decide)).2.1⟩

/-- C2 counterexample: with N = 3 threads and range `[0, 5)` the claim
predicts `min(3, 5) = 3` chunks and at most 3 submitted jobs, but the
code produces 5 chunks of stride 1 and enqueues 5 jobs. -/
theorem addRangeJob_chunk_count_cex :
    (rangeChunks ⟨false, 0⟩ (initState 3 100) 0 5).length = 5 ∧
    min (numberOfThreads ⟨false, 0⟩ (initState 3 100)) (5 - 0) = 3 ∧
    (addRangeJob ⟨false, 0⟩ 0 5 0 (fun _ _ _ => none)
      (initState 3 100)).1.queue.length = 5 ∧ (3 : Nat) < 5 := by
  exact ⟨rfl, by decide, rfl, by decide⟩

/-! ## Claim C4: AddRangeJob covers the range exactly -/

/-- C4: the chunks submitted by `AddRangeJob` tile `[lo, hi)` exactly —
concatenating the index ranges of all submitted chunks yields every
integer of `[lo, hi)` exactly once, in order, with no duplicates and no
gaps; each chunk's job invokes `f` on precisely its own index range when
`f` raises no error; and `AddRangeJob` with `lo ≥ hi` submits nothing and
returns nil with the state unchanged. -/
theorem addRangeJob_coverage (t : ThreadPool) (s : threadPool) (lo hi g : Int)
    (f : Int → ThreadPool → Option Err → Option Err)
    (hN : 1 ≤ numberOfThreads t s) :
    (lo ≥ hi → addRangeJob t lo hi g f s = (s, none)) ∧
    (rangeChunks t s lo hi).flatMap (fun p => intRange p.1 p.2) = intRange lo hi ∧
    (∀ (p : ThreadPool) (e : Option Err), (∀ i q e2, f i q e2 = none) →
      ∀ a b : Int, (chunkRun f p e a b).1 = intRange a b) := by
  refine ⟨?_, ?_, ?_⟩
  · intro hge
    simp [addRangeJob, hge]
  · by_cases h : lo < hi
    · rw [rangeChunks_eq t s lo hi h]
      exact chunksGo_cover hi (rangeStride t s lo hi)
        (rangeStride_pos t s lo hi h hN) (hi - lo).toNat lo (le_refl _)
    · have hnil : rangeChunks t s lo hi = [] := by
        unfold rangeChunks
        rw [if_pos (by omega)]
      rw [hnil, intRange_eq_nil lo hi (by omega)]
      rfl
  · intro p e hf a b
    exact chunkRunGo_trace f p e b hf (b - a).toNat a (le_refl _)

/-- C4 witness: instantiating `addRangeJob_coverage` with 2 threads on
the range `[0, 3)`. -/
theorem addRangeJob_coverage_witness :
    1 ≤ numberOfThreads ⟨false, 0⟩ (initState 2 1) ∧
    (rangeChunks ⟨false, 0⟩ (initState 2 1) 0 3).flatMap
      (fun p => intRange p.1 p.2) = intRange 0 3 :=
  ⟨by decide,
    (addRangeJob_coverage ⟨false, 0⟩ (initState 2 1) 0 3 0
      (fun _ _ _ => none) (by decide)).2.1⟩

/-! ## Claim C10: termination of the chunking loop -/

/-- C10: for `lo < hi` on a pool with at least one thread, the chunk
bound `m = min(N, hi-lo)` is at least 1, hence the stride
`n = (hi-lo)/m` is at least 1, and the chunking loop of `AddRangeJob`
performs at least one and at most `hi - lo` iterations (the loop index
strictly increases by `n ≥ 1` each step until it reaches `hi`). -/
theorem addRangeJob_terminating (t : ThreadPool) (s : threadPool) (lo hi : Int)
    (hlt : lo < hi) (hN : 1 ≤ numberOfThreads t s) :
    1 ≤ rangeChunkNum t s lo hi ∧
    1 ≤ rangeStride t s lo hi ∧
    1 ≤ (rangeChunks t s lo hi).length ∧
    (rangeChunks t s lo hi).length ≤ (hi - lo).toNat := by
  obtain ⟨hm, _⟩ := rangeChunkNum_bounds t s lo hi hlt hN
  have hn := rangeStride_pos t s lo hi hlt hN
  refine ⟨hm, hn, ?_, ?_⟩
  · rw [rangeChunks_eq t s lo hi hlt]
    show 1 ≤ (chunksGo hi (rangeStride t s lo hi) (hi - lo).toNat lo).length
    rw [chunksGo_length hi (rangeStride t s lo hi) hn (hi - lo).toNat lo (le_refl _)]
    have hge : 1 ≤ (hi - lo + rangeStride t s lo hi - 1) / rangeStride t s lo hi := by
      rw [Int.le_ediv_iff_mul_le (by omega)]
      omega
    omega
  · rw [rangeChunks_eq t s lo hi hlt]
    show (chunksGo hi (rangeStride t s lo hi) (hi - lo).toNat lo).length ≤
      (hi - lo).toNat
    exact chunksGo_length_le hi (rangeStride t s lo hi) (hi - lo).toNat lo

/-- C10 witness: instantiating `addRangeJob_terminating` with 5 threads
on the range `[0, 20)`. -/
theorem addRangeJob_terminating_witness :
    ((0 : Int) < 20 ∧ 1 ≤ numberOfThreads ⟨false, 0⟩ (initState 5 100)) ∧
    1 ≤ rangeStride ⟨false, 0⟩ (initState 5 100) 0 20 :=
  ⟨⟨by decide, by decide⟩,
    (addRangeJob_terminating ⟨false, 0⟩ (initState 5 100) 0 20
      (by decide) (by decide)).2.1⟩

end Threadpool
